import Mathlib

/-!
Verification of the BMP codec and raster editor (`src/bmp_header.hpp`,
`src/main.cpp`).

The C++ program is shallowly embedded: a file is a `List Nat` of byte
values; the sequential `ifstream` reads become position-indexed lookups
that fail (`Option`/`Except`) where the stream would run dry; the pixel
grid `Pixel**` becomes `List (List Pixel)`; `LONG`/`DWORD`/`WORD`
become `Int`/`Nat` (the program never exercises 32-bit wrap-around on
the values the claims quantify over).
-/

namespace BMP

/-- `struct Pixel`: four 8-bit channels (source stores `r g b a` bytes).
Channel values are `Nat`; bytes read from a file are below 256.  The
source leaves `a` uninitialised when the bit depth is not 32; the model
fixes that never-written channel at 0. -/
structure Pixel where
  r : Nat := 0
  g : Nat := 0
  b : Nat := 0
  a : Nat := 0
deriving DecidableEq, Repr, Inhabited

/-- `struct BMPImageInfo`: `width`, `height` are `LONG` (signed 32-bit),
`bit_count` a `WORD`. -/
structure BMPImageInfo where
  width : Int
  height : Int
  bit_count : Nat
deriving DecidableEq, Repr

/-- `class BMPImage`: the pixel grid, the parsed fields, and the raw
header bytes (`BMPHeaders` is a plain byte buffer, modelled `List Nat`). -/
structure BMPImage where
  array_pixels : List (List Pixel)
  image_info : BMPImageInfo
  hdrs : List Nat
deriving DecidableEq, Repr

/-- Decode failures: the explicit signature check, and stream failure
(`std::ifstream` reads past end of data). -/
inductive DecodeError where
  | invalidSignature
  | ioError
deriving DecidableEq, Repr

/-- `read_bytes<BYTE>` at an explicit position: the byte at `pos`, or
failure past the end. -/
def readU8 (f : List Nat) (pos : Nat) : Option Nat := f[pos]?

/-- `read_bytes<WORD>`: two bytes, little-endian. -/
def readU16 (f : List Nat) (pos : Nat) : Option Nat := do
  let b0 ← readU8 f pos
  let b1 ← readU8 f (pos + 1)
  pure (b0 + 256 * b1)

/-- `read_bytes<DWORD>`: four bytes, little-endian. -/
def readU32 (f : List Nat) (pos : Nat) : Option Nat := do
  let b0 ← readU8 f pos
  let b1 ← readU8 f (pos + 1)
  let b2 ← readU8 f (pos + 2)
  let b3 ← readU8 f (pos + 3)
  pure (b0 + 256 * b1 + 65536 * b2 + 16777216 * b3)

/-- Two's-complement reinterpretation of a 32-bit value, for `LONG`. -/
def toSigned32 (v : Nat) : Int :=
  if v < 2 ^ 31 then (v : Int) else (v : Int) - 2 ^ 32

/-- `read_bytes<LONG>`: four bytes, little-endian, signed. -/
def readI32 (f : List Nat) (pos : Nat) : Option Int :=
  (readU32 f pos).map toSigned32

/-- The row padding `(4 - (width * 3 % 4)) % 4` computed by both
`read_array_pixels` and `write_image`; `%` is C's truncating remainder
(`Int.tmod`).  Note the formula uses the 3-byte stride whatever the bit
depth. -/
def rowPadding (w : Int) : Int := (4 - (w * 3).tmod 4).tmod 4

/-- Bytes one pixel occupies on disk: B,G,R and, at 32-bit depth, A. -/
def bytesPerPixel (bc : Nat) : Nat := if bc = 32 then 4 else 3

/-- One iteration of the pixel loop in `read_array_pixels`: read `b`,
`g`, `r` and, when `bit_count == 32`, `a`.  Returns the pixel and the
position after it. -/
def readPixel (f : List Nat) (bc : Nat) (pos : Nat) : Option (Pixel × Nat) := do
  let b ← readU8 f pos
  let g ← readU8 f (pos + 1)
  let r ← readU8 f (pos + 2)
  if bc = 32 then
    let a ← readU8 f (pos + 3)
    pure (⟨r, g, b, a⟩, pos + 4)
  else
    pure (⟨r, g, b, 0⟩, pos + 3)

/-- The inner `for (j = 0; j < m_width; j++)` loop of
`read_array_pixels`: read `n` consecutive pixels. -/
def readRowPixels (f : List Nat) (bc : Nat) : Nat → Nat → Option (List Pixel × Nat)
  | 0, pos => some ([], pos)
  | n + 1, pos => do
    let (p, pos1) ← readPixel f bc pos
    let (ps, pos2) ← readRowPixels f bc n pos1
    pure (p :: ps, pos2)

/-- The outer row loop of `read_array_pixels`: read `n` rows of `w`
pixels, skipping `pad` bytes after each row (the `seekg(padding, cur)`),
returning the rows in on-disk order. -/
def readRows (f : List Nat) (bc w pad : Nat) : Nat → Nat → Option (List (List Pixel) × Nat)
  | 0, pos => some ([], pos)
  | n + 1, pos => do
    let (row, pos1) ← readRowPixels f bc w pos
    let (rows, pos2) ← readRows f bc w pad n (pos1 + pad)
    pure (row :: rows, pos2)

/-- The net effect of `array_pixels[fixed_row] = ...` with
`fixed_row = top_down ? (m_height - 1 - i) : i`: when `top_down`, disk
row `i` lands at index `height - 1 - i`, i.e. the stored grid is the
reversal of the on-disk row list; otherwise the rows are kept in disk
order. -/
def fixRows (top_down : Bool) (rows : List (List Pixel)) : List (List Pixel) :=
  if top_down then rows.reverse else rows

/-- `BMPImageReader::read_array_pixels`: seek to `off`, read
`height × width` pixels with per-row padding, place each disk row at its
`fixed_row` index. -/
def read_array_pixels (f : List Nat) (off : Nat) (w h : Int) (bc : Nat)
    (top_down : Bool) : Option (List (List Pixel)) :=
  match readRows f bc w.toNat (rowPadding w).toNat h.toNat off with
  | none => none
  | some (rows, _) => some (fixRows top_down rows)

/-- `BMPImageReader::read_image`: check the signature, parse
`off_bits` (byte 10), `width` (byte 18), `height` (byte 22, sign =
orientation), `bit_count` (byte 28), read the pixel grid, and capture
the first `off_bits` bytes verbatim as the header blob. -/
def read_image (f : List Nat) : Except DecodeError BMPImage :=
  match readU16 f 0 with
  | none => .error .ioError
  | some sig =>
    if sig = 0x4D42 then
      match readU32 f 10 with
      | none => .error .ioError
      | some off_bits =>
        match readI32 f 18, readI32 f 22 with
        | some width, some height0 =>
          let top_down : Bool := decide (height0 < 0)
          let height : Int := if height0 < 0 then -height0 else height0
          match readU16 f 28 with
          | none => .error .ioError
          | some bit_count =>
            match read_array_pixels f off_bits width height bit_count top_down with
            | none => .error .ioError
            | some array_pixels =>
              .ok ⟨array_pixels, ⟨width, height, bit_count⟩, f.take off_bits⟩
        | none, _ => .error .ioError
        | some _, none => .error .ioError
    else .error .invalidSignature

/-- `BMPImage::pixel_at(i, j)`: `m_array_pixels[i][j]`; the first index
selects a row of the grid. -/
def pixel_at (img : BMPImage) (i j : Nat) : Pixel :=
  (img.array_pixels.getD i []).getD j default

/-- The bytes `write_image` emits for one pixel: `b`, `g`, `r`, and `a`
only at 32-bit depth. -/
def write_pixel (bc : Nat) (p : Pixel) : List Nat :=
  [p.b, p.g, p.r] ++ (if bc = 32 then [p.a] else [])

/-- The inner column loop of `BMPImageWriter::write_image` for row `i`. -/
def write_row (img : BMPImage) (i : Nat) : List Nat :=
  (List.range img.image_info.width.toNat).flatMap
    (fun j => write_pixel img.image_info.bit_count (pixel_at img i j))

/-- `BMPImageWriter::write_image`: header blob verbatim, then the
in-memory rows `0 .. height-1` in index order, each followed by
`padding` zero bytes. -/
def write_image (img : BMPImage) : List Nat :=
  img.hdrs ++
    (List.range img.image_info.height.toNat).flatMap
      (fun i => write_row img i ++ List.replicate (rowPadding img.image_info.width).toNat 0)

/-- The guard of `BMPImageEditor::set_pixel`:
`x >= 0 && x < width() && y >= 0 && y < height()`. -/
def set_pixel_guard (img : BMPImage) (x y : Int) : Bool :=
  decide (0 ≤ x) && decide (x < img.image_info.width) &&
    decide (0 ≤ y) && decide (y < img.image_info.height)

/-- The assignment `m_array_pixels[x][y] = color` (grid row `x`,
column `y`); an index outside the grid is left as a no-op here, where
the C++ dereference would be out of its allocation. -/
def updatePixel (rows : List (List Pixel)) (x y : Nat) (c : Pixel) : List (List Pixel) :=
  rows.set x ((rows.getD x []).set y c)

/-- Whether the access `m_array_pixels[x][y]` made by `set_pixel` after
its guard actually lands inside the allocated grid. -/
def pixel_access_in_bounds (img : BMPImage) (x y : Int) : Bool :=
  decide (x.toNat < img.array_pixels.length) &&
    decide (y.toNat < (img.array_pixels.getD x.toNat []).length)

/-- `BMPImageEditor::set_pixel`. -/
def set_pixel (img : BMPImage) (x y : Int) (color : Pixel) : BMPImage :=
  if set_pixel_guard img x y then
    { img with array_pixels := updatePixel img.array_pixels x.toNat y.toNat color }
  else img

/-- Bookkeeping for the loop: prepend the point just passed to
`set_pixel` to a recursive result. -/
def withPoint (q : Int × Int) (r : BMPImage × List (Int × Int) × Bool) :
    BMPImage × List (Int × Int) × Bool :=
  (r.1, q :: r.2.1, r.2.2)

/-- The `while (true)` body of `BMPImageEditor::draw_line`, run on
explicit fuel (the loop has no syntactic bound; the fuel is shown
sufficient below).  Returns the image, the list of points passed to
`set_pixel` in call order, and whether a `break` was reached before the
fuel ran out. -/
def draw_line_loop (clr : Pixel) (x1 y1 dx dy sx sy : Int) :
    Nat → Int → Int → Int → BMPImage → BMPImage × List (Int × Int) × Bool
  | 0, _, _, _, img => (img, [], false)
  | fuel + 1, x0, y0, err, img =>
    let img1 := set_pixel img x0 y0 clr
    if x0 = x1 ∧ y0 = y1 then (img1, [(x0, y0)], true)
    else
      let e2 := 2 * err
      if dy ≤ e2 then
        if x0 = x1 then (img1, [(x0, y0)], true)
        else
          if e2 ≤ dx then
            if y0 = y1 then (img1, [(x0, y0)], true)
            else
              withPoint (x0, y0) (draw_line_loop clr x1 y1 dx dy sx sy fuel
                (x0 + sx) (y0 + sy) (err + dy + dx) img1)
          else
            withPoint (x0, y0) (draw_line_loop clr x1 y1 dx dy sx sy fuel
              (x0 + sx) y0 (err + dy) img1)
      else
        if e2 ≤ dx then
          if y0 = y1 then (img1, [(x0, y0)], true)
          else
            withPoint (x0, y0) (draw_line_loop clr x1 y1 dx dy sx sy fuel
              x0 (y0 + sy) (err + dx) img1)
        else
          withPoint (x0, y0) (draw_line_loop clr x1 y1 dx dy sx sy fuel x0 y0 err img1)

/-- Fuel that suffices for `draw_line_loop` (proved below): one more
than the taxicab distance between the endpoints. -/
def line_fuel (x0 y0 x1 y1 : Int) : Nat :=
  (x1 - x0).natAbs + (y1 - y0).natAbs + 1

/-- `BMPImageEditor::draw_line`'s Bresenham setup (`dx`, `dy`, `sx`,
`sy`, `err`) followed by the loop: the final image together with the
loop's bookkeeping. -/
def draw_line_run (img : BMPImage) (x0 y0 x1 y1 : Int) (clr : Pixel) :
    BMPImage × List (Int × Int) × Bool :=
  let dx : Int := |x1 - x0|
  let dy : Int := -|y1 - y0|
  let sx : Int := if x0 < x1 then 1 else -1
  let sy : Int := if y0 < y1 then 1 else -1
  draw_line_loop clr x1 y1 dx dy sx sy (line_fuel x0 y0 x1 y1) x0 y0 (dx + dy) img

/-- `BMPImageEditor::draw_line`. -/
def draw_line (img : BMPImage) (x0 y0 x1 y1 : Int) (clr : Pixel) : BMPImage :=
  (draw_line_run img x0 y0 x1 y1 clr).1

/-- The sampled points of `draw_line` (the arguments its loop passes to
`set_pixel`, in order). -/
def draw_line_points (img : BMPImage) (x0 y0 x1 y1 : Int) (clr : Pixel) : List (Int × Int) :=
  (draw_line_run img x0 y0 x1 y1 clr).2.1

/-- `BMPImageEditor::draw_diagonal_cross`: the two diagonals. -/
def draw_diagonal_cross (img : BMPImage) (x1 y1 x2 y2 : Int) (color : Pixel) : BMPImage :=
  draw_line (draw_line img x1 y1 x2 y2 color) x1 y2 x2 y1 color

/-- The characters one pixel contributes in `BMPImage::print_image`:
`'@'` for pure black, `'*'` for pure white, and nothing otherwise (the
source prints no character in the final case). -/
def pixel_chars (p : Pixel) : List Char :=
  if p.r = 0 ∧ p.g = 0 ∧ p.b = 0 then ['@']
  else if p.r = 255 ∧ p.g = 255 ∧ p.b = 255 then ['*']
  else []

/-- `BMPImage::print_image`: one output row per grid row
`0 .. height-1`, each the concatenation of the per-pixel characters over
columns `0 .. width-1`. -/
def print_image (img : BMPImage) : List (List Char) :=
  (List.range img.image_info.height.toNat).map
    (fun i => (List.range img.image_info.width.toNat).flatMap
      (fun j => pixel_chars (pixel_at img i j)))

/-- Well-formed grid: the row count and every row length match the
parsed `ImageInfo`, as the decoder guarantees. -/
def dimsOk (img : BMPImage) : Prop :=
  img.array_pixels.length = img.image_info.height.toNat ∧
    ∀ row ∈ img.array_pixels, row.length = img.image_info.width.toNat

/-! ### Generic list helpers -/

theorem map_range_getD {α β : Type} (l : List α) (d : α) (F : α → β) :
    (List.range l.length).map (fun i => F (l.getD i d)) = l.map F := by
  apply List.ext_getElem
  · simp
  · intro n h1 h2
    simp only [List.getElem_map, List.getElem_range, List.length_range] at *
    congr 1
    rw [List.getD_eq_getElem?_getD, List.getElem?_eq_getElem (by simpa using h1)]
    rfl

theorem flatMap_range_getD {α β : Type} (l : List α) (d : α) (g : α → List β) :
    (List.range l.length).flatMap (fun i => g (l.getD i d)) = l.flatMap g := by
  have h := map_range_getD l d (fun x => x)
  simp only [List.map_id'] at h
  conv_rhs => rw [← h]
  rw [List.flatMap_map]

theorem flatMap_range_length_const {α : Type} {c : Nat} (g : Nat → List α) (n : Nat)
    (h : ∀ j, (g j).length = c) : ((List.range n).flatMap g).length = n * c := by
  induction n with
  | zero => simp
  | succ k ih =>
    rw [List.range_succ]
    simp [ih, h]
    ring

/-! ### Shape of successful pixel reads -/

theorem write_pixel_length (bc : Nat) (p : Pixel) :
    (write_pixel bc p).length = bytesPerPixel bc := by
  unfold write_pixel bytesPerPixel
  split <;> simp

theorem readPixel_spec {f : List Nat} {bc pos : Nat} {p : Pixel} {pos' : Nat}
    (h : readPixel f bc pos = some (p, pos')) :
    pos' = pos + bytesPerPixel bc ∧ (bc ≠ 32 → p.a = 0) := by
  unfold readPixel at h
  simp only [Option.bind_eq_bind, Option.bind_eq_some, Option.pure_def,
    Option.some.injEq] at h
  obtain ⟨b, hb, g, hg, r, hr, h⟩ := h
  by_cases hbc : bc = 32
  · rw [if_pos hbc] at h
    simp only [Option.bind_eq_bind, Option.bind_eq_some, Option.some.injEq] at h
    obtain ⟨a, ha, h⟩ := h
    cases h
    simp [bytesPerPixel, hbc]
  · rw [if_neg hbc] at h
    cases h
    simp [bytesPerPixel, hbc]

theorem readRowPixels_spec {f : List Nat} {bc : Nat} :
    ∀ {n pos : Nat} {ps : List Pixel} {pos' : Nat},
      readRowPixels f bc n pos = some (ps, pos') →
      ps.length = n ∧ pos' = pos + n * bytesPerPixel bc ∧
        (∀ p ∈ ps, bc ≠ 32 → p.a = 0) := by
  intro n
  induction n with
  | zero =>
    intro pos ps pos' h
    simp only [readRowPixels, Option.some.injEq, Prod.mk.injEq] at h
    obtain ⟨h1, h2⟩ := h
    subst h1; subst h2
    simp
  | succ k ih =>
    intro pos ps pos' h
    simp only [readRowPixels, Option.bind_eq_bind, Option.bind_eq_some,
      Option.pure_def, Option.some.injEq] at h
    obtain ⟨⟨p, pos1⟩, hp, ⟨ps2, pos2⟩, hps, h⟩ := h
    cases h
    obtain ⟨hadv, halpha⟩ := readPixel_spec hp
    obtain ⟨hlen, hpos, hal⟩ := ih hps
    refine ⟨by simp [hlen], ?_, ?_⟩
    · subst hadv; subst hpos; ring
    · intro q hq
      rcases List.mem_cons.1 hq with hq | hq
      · subst hq; exact halpha
      · exact hal q hq

theorem readRows_spec {f : List Nat} {bc w pad : Nat} :
    ∀ {n pos : Nat} {rows : List (List Pixel)} {pos' : Nat},
      readRows f bc w pad n pos = some (rows, pos') →
      rows.length = n ∧ (∀ row ∈ rows, row.length = w) ∧
        pos' = pos + n * (w * bytesPerPixel bc + pad) ∧
        (∀ row ∈ rows, ∀ p ∈ row, bc ≠ 32 → p.a = 0) := by
  intro n
  induction n with
  | zero =>
    intro pos rows pos' h
    simp only [readRows, Option.some.injEq, Prod.mk.injEq] at h
    obtain ⟨h1, h2⟩ := h
    subst h1; subst h2
    simp
  | succ k ih =>
    intro pos rows pos' h
    simp only [readRows, Option.bind_eq_bind, Option.bind_eq_some,
      Option.pure_def, Option.some.injEq] at h
    obtain ⟨⟨row, pos1⟩, hrow, ⟨rows2, pos2⟩, hrows, h⟩ := h
    cases h
    obtain ⟨hlen1, hadv1, hal1⟩ := readRowPixels_spec hrow
    obtain ⟨hlen2, hall2, hadv2, hal2⟩ := ih hrows
    refine ⟨by simp [hlen2], ?_, ?_, ?_⟩
    · intro r hr
      rcases List.mem_cons.1 hr with hr | hr
      · subst hr; exact hlen1
      · exact hall2 r hr
    · subst hadv1; subst hadv2; ring
    · intro r hr
      rcases List.mem_cons.1 hr with hr | hr
      · subst hr; exact hal1
      · exact hal2 r hr

/-- Decode success, fully determined by the parsed fields: the shape
`read_image` returns once every read succeeds. -/
theorem read_image_eq {f : List Nat} {off : Nat} {w h0 : Int} {bc : Nat}
    {rows : List (List Pixel)} {pos : Nat}
    (hsig : readU16 f 0 = some 0x4D42)
    (hoff : readU32 f 10 = some off)
    (hw : readI32 f 18 = some w)
    (hh : readI32 f 22 = some h0)
    (hbc : readU16 f 28 = some bc)
    (hrows : readRows f bc w.toNat (rowPadding w).toNat
        (if h0 < 0 then -h0 else h0).toNat off = some (rows, pos)) :
    read_image f = .ok ⟨fixRows (decide (h0 < 0)) rows,
      ⟨w, if h0 < 0 then -h0 else h0, bc⟩, f.take off⟩ := by
  simp only [read_image, read_array_pixels, hsig, hoff, hw, hh, hbc, hrows,
    reduceIte]

/-! ### Concrete files for witnesses and counterexamples -/

/-- The pixel with bytes `b=10, g=20, r=30`. -/
def pixA : Pixel := ⟨30, 20, 10, 0⟩

/-- The pixel with bytes `b=40, g=50, r=60`. -/
def pixB : Pixel := ⟨60, 50, 40, 0⟩

/-- A minimal bottom-up 24-bit file: `off_bits = 30`, `width = 1`,
`height = 2`, one padding byte per row; disk rows `[pixA]`, `[pixB]`. -/
def fBU : List Nat :=
  [0x42, 0x4D, 0, 0, 0, 0, 0, 0, 0, 0, 30, 0, 0, 0, 0, 0, 0, 0,
   1, 0, 0, 0, 2, 0, 0, 0, 0, 0, 24, 0,
   10, 20, 30, 0, 40, 50, 60, 0]

/-- The same pixels as `fBU` but stored top-down: `height = -2`
(bytes `FE FF FF FF`) and the disk rows visually top-to-bottom, i.e.
`[pixB]` then `[pixA]` (the reverse of `fBU`'s disk order). -/
def gTD : List Nat :=
  [0x42, 0x4D, 0, 0, 0, 0, 0, 0, 0, 0, 30, 0, 0, 0, 0, 0, 0, 0,
   1, 0, 0, 0, 254, 255, 255, 255, 0, 0, 24, 0,
   40, 50, 60, 0, 10, 20, 30, 0]

/-- A top-down file with two distinct rows, disk order `[pixA]`,
`[pixB]` (visual top = `pixA`'s row). -/
def fTD : List Nat :=
  [0x42, 0x4D, 0, 0, 0, 0, 0, 0, 0, 0, 30, 0, 0, 0, 0, 0, 0, 0,
   1, 0, 0, 0, 254, 255, 255, 255, 0, 0, 24, 0,
   10, 20, 30, 0, 40, 50, 60, 0]

/-! ### C5: row padding -/

/-- C5: the decoder advances past each pixel row by
`width*bytesPerPixel + (4 - (width*3) % 4) % 4` bytes — the padding
computed by `rowPadding` from the 3-byte stride, with no dependence on
the bit depth — and the encoder's output likewise carries exactly that
many padding bytes per row; `rowPadding 5 = 1` and `rowPadding 4 = 0`. -/
theorem C5_row_padding :
    (∀ (f : List Nat) (bc : Nat) (w : Int) (n pos : Nat)
        (rows : List (List Pixel)) (pos' : Nat),
        readRows f bc w.toNat (rowPadding w).toNat n pos = some (rows, pos') →
        pos' = pos + n * (w.toNat * bytesPerPixel bc + (rowPadding w).toNat))
    ∧ (∀ img : BMPImage,
        (write_image img).length = img.hdrs.length
          + img.image_info.height.toNat
            * (img.image_info.width.toNat * bytesPerPixel img.image_info.bit_count
              + (rowPadding img.image_info.width).toNat))
    ∧ rowPadding 5 = 1 ∧ rowPadding 4 = 0 := by
  refine ⟨?_, ?_, by decide, by decide⟩
  · intro f bc w n pos rows pos' h
    exact (readRows_spec h).2.2.1
  · intro img
    unfold write_image
    rw [List.length_append]
    congr 1
    refine flatMap_range_length_const _ _ (fun i => ?_)
    rw [List.length_append, List.length_replicate]
    congr 1
    unfold write_row
    exact flatMap_range_length_const _ _ (fun j => write_pixel_length _ _)

/-- Witness for C5 on the concrete file `fBU` (width 1, two rows,
24-bit): the decoder finishes the pixel array at byte
`30 + 2*(1*3 + 1) = 38`. -/
theorem C5_row_padding_witness :
    (38 : Nat) = 30 + 2 * ((1 : Int).toNat * bytesPerPixel 24 + (rowPadding 1).toNat) :=
  C5_row_padding.1 fBU 24 1 2 30 [[pixA], [pixB]] 38 rfl

/-! ### C6: signature check -/

/-- C6: any input whose first two bytes are not `0x42 0x4D` decodes to
the `invalidSignature` error (and hence to no image). -/
theorem C6_invalid_signature (b0 b1 : Nat) (rest : List Nat)
    (hb0 : b0 < 256) (hb1 : b1 < 256) (hsig : ¬(b0 = 0x42 ∧ b1 = 0x4D)) :
    read_image (b0 :: b1 :: rest) = .error .invalidSignature := by
  have h16 : readU16 (b0 :: b1 :: rest) 0 = some (b0 + 256 * b1) := by
    simp [readU16, readU8]
  have hne : ¬(b0 + 256 * b1 = 0x4D42) := by omega
  unfold read_image
  rw [h16]
  simp [hne]

/-- Witness for C6: the two-byte file `[0, 0]` is rejected. -/
theorem C6_invalid_signature_witness :
    read_image [0, 0] = .error .invalidSignature :=
  C6_invalid_signature 0 0 [] (by decide) (by decide) (by decide)

/-! ### C2: row placement at decode time -/

/-- C2 (amended): the decoder places on-disk row `i` at in-memory row
index `top_down ? (height-1-i) : i`, so the in-memory grid is the
on-disk row list reversed for top-down files and kept as-is for
bottom-up files — i.e. memory is always normalized to bottom-up order
(row 0 = visually bottommost), not top-down. -/
theorem C2_row_placement :
    (∀ (f : List Nat) (off : Nat) (w h : Int) (bc : Nat) (td : Bool)
        (rows : List (List Pixel)) (pos : Nat),
        readRows f bc w.toNat (rowPadding w).toNat h.toNat off = some (rows, pos) →
        read_array_pixels f off w h bc td = some (fixRows td rows))
    ∧ (∀ (td : Bool) (rows : List (List Pixel)) (i : Nat), i < rows.length →
        (fixRows td rows)[if td then rows.length - 1 - i else i]? = rows[i]?) := by
  constructor
  · intro f off w h bc td rows pos h
    unfold read_array_pixels
    rw [h]
  · intro td rows i hi
    cases td with
    | false => simp [fixRows]
    | true =>
      simp only [fixRows, if_true]
      rw [List.getElem?_reverse (by omega)]
      congr 1
      omega

/-- Witness for C2: decoding `gTD` (top-down, disk rows
`[[pixB],[pixA]]`) stores disk row 0 at memory index `2-1-0 = 1`. -/
theorem C2_row_placement_witness :
    read_array_pixels gTD 30 1 2 24 true = some (fixRows true [[pixB], [pixA]])
    ∧ (fixRows true [[pixB], [pixA]])[2 - 1 - 0]? = [[pixB], [pixA]][0]? := by
  constructor
  · exact C2_row_placement.1 gTD 30 1 2 24 true [[pixB], [pixA]] 38 rfl
  · have h := C2_row_placement.2 true [[pixB], [pixA]] 0 (by decide)
    simpa using h

/-- Counterexample to C2 as stated: the claim predicts that for a
bottom-up file disk row `i` is stored at memory index `height-1-i`.
For `fBU` (bottom-up, `height = 2`, distinct disk rows `[pixA]`,
`[pixB]`) the decoder in fact yields memory `[[pixA],[pixB]]` — equal
to the disk order — and memory row `2-1-0 = 1` differs from disk
row 0. -/
theorem C2_row_placement_cex :
    (read_image fBU).toOption.map BMPImage.array_pixels = some [[pixA], [pixB]]
    ∧ readRows fBU 24 1 1 2 30 = some ([[pixA], [pixB]], 38)
    ∧ ([[pixA], [pixB]] : List (List Pixel))[2 - 1 - 0]?
        ≠ ([[pixA], [pixB]] : List (List Pixel))[0]? := by
  refine ⟨rfl, rfl, ?_⟩
  decide

/-! ### C3: orientation normalization -/

/-- C3: two files holding the same visual rows — `f` bottom-up
(height field `h > 0`) and `g` top-down (height field `-h`), so `g`'s
disk rows are the reverse of `f`'s — decode to identical pixel grids,
and in particular to identical `pixel_at 0 0`. -/
theorem C3_orientation_equal
    (f g : List Nat) (imf img2 : BMPImage) (offF offG : Nat) (w h : Int) (bc : Nat)
    (D : List (List Pixel)) (p1 p2 : Nat)
    (hsigF : readU16 f 0 = some 0x4D42) (hsigG : readU16 g 0 = some 0x4D42)
    (hoffF : readU32 f 10 = some offF) (hoffG : readU32 g 10 = some offG)
    (hwF : readI32 f 18 = some w) (hwG : readI32 g 18 = some w)
    (hhF : readI32 f 22 = some h) (hhG : readI32 g 22 = some (-h)) (hpos : 0 < h)
    (hbcF : readU16 f 28 = some bc) (hbcG : readU16 g 28 = some bc)
    (hDF : readRows f bc w.toNat (rowPadding w).toNat h.toNat offF = some (D, p1))
    (hDG : readRows g bc w.toNat (rowPadding w).toNat h.toNat offG = some (D.reverse, p2))
    (hfok : read_image f = .ok imf) (hgok : read_image g = .ok img2) :
    imf.array_pixels = img2.array_pixels ∧ pixel_at imf 0 0 = pixel_at img2 0 0 := by
  have hif : (if h < 0 then -h else h) = h := if_neg (by omega)
  have hifg : (if (-h : Int) < 0 then -(-h) else -h) = h := by
    rw [if_pos (by omega)]
    ring
  have e1 := read_image_eq hsigF hoffF hwF hhF hbcF (by rw [hif]; exact hDF)
  have e2 := read_image_eq hsigG hoffG hwG hhG hbcG (by rw [hifg]; exact hDG)
  rw [hfok] at e1
  rw [hgok] at e2
  have h1 := Except.ok.inj e1
  have h2 := Except.ok.inj e2
  subst h1
  subst h2
  have hd1 : decide (h < 0) = false := decide_eq_false (by omega)
  have hd2 : decide ((-h : Int) < 0) = true := decide_eq_true (by omega)
  have harr : fixRows (decide (h < 0)) D = fixRows (decide ((-h : Int) < 0)) D.reverse := by
    rw [hd1, hd2]
    simp [fixRows]
  exact ⟨harr, by simp [pixel_at, harr]⟩

/-- The image `read_image` produces from `fBU`. -/
def imgBU : BMPImage := ⟨[[pixA], [pixB]], ⟨1, 2, 24⟩, fBU.take 30⟩

/-- The image `read_image` produces from `gTD`. -/
def imgTD : BMPImage := ⟨[[pixA], [pixB]], ⟨1, 2, 24⟩, gTD.take 30⟩

/-- Witness for C3 at the concrete pair `fBU` / `gTD`. -/
theorem C3_orientation_equal_witness :
    imgBU.array_pixels = imgTD.array_pixels ∧ pixel_at imgBU 0 0 = pixel_at imgTD 0 0 :=
  C3_orientation_equal fBU gTD imgBU imgTD 30 30 1 2 24 [[pixA], [pixB]] 38 38
    rfl rfl rfl rfl rfl rfl rfl rfl (by decide) rfl rfl rfl rfl rfl rfl

/-! ### C9: the ASCII preview -/

/-- C9 (amended): `print_image` yields one character row per image row
(`height` rows in total); each pixel contributes `'@'` if it is pure
black, `'*'` if pure white, and **no character at all** otherwise (the
source's if/else chain prints nothing in the final case, so preview
rows can be shorter than `width`). -/
theorem C9_preview :
    (∀ img : BMPImage, (print_image img).length = img.image_info.height.toNat)
    ∧ (∀ img : BMPImage, dimsOk img →
        print_image img = img.array_pixels.map (fun row => row.flatMap pixel_chars))
    ∧ (∀ p : Pixel,
        (p.r = 0 ∧ p.g = 0 ∧ p.b = 0 → pixel_chars p = ['@'])
        ∧ (p.r = 255 ∧ p.g = 255 ∧ p.b = 255 → pixel_chars p = ['*'])
        ∧ (¬(p.r = 0 ∧ p.g = 0 ∧ p.b = 0) → ¬(p.r = 255 ∧ p.g = 255 ∧ p.b = 255) →
            pixel_chars p = [])) := by
  refine ⟨fun img => by simp [print_image], ?_, ?_⟩
  · intro img ⟨hlen, hrow⟩
    unfold print_image
    rw [← hlen]
    have h1 := map_range_getD img.array_pixels []
      (fun row => (List.range img.image_info.width.toNat).flatMap
        (fun j => pixel_chars (row.getD j default)))
    simp only [pixel_at]
    rw [h1]
    refine List.map_congr_left (fun row hr => ?_)
    rw [← hrow row hr]
    exact flatMap_range_getD row default pixel_chars
  · intro p
    refine ⟨fun h => ?_, fun h => ?_, fun h1 h2 => ?_⟩
    · simp [pixel_chars, h.1, h.2.1, h.2.2]
    · obtain ⟨ha, hb, hc⟩ := h
      simp [pixel_chars, ha, hb, hc]
    · simp [pixel_chars, h1, h2]

/-- A 1×1 image whose pixel is neither pure black nor pure white. -/
def grayImg : BMPImage := ⟨[[⟨1, 2, 3, 0⟩]], ⟨1, 1, 24⟩, []⟩

/-- A 1×1 pure-black image. -/
def blackImg : BMPImage := ⟨[[⟨0, 0, 0, 0⟩]], ⟨1, 1, 24⟩, []⟩

/-- Counterexample to C9 as stated: the claim maps every pixel to
exactly one character (blank when neither black nor white).  On a 1×1
image with the gray pixel `(1,2,3)` the preview row is empty — zero
characters for one pixel — rather than a one-character blank row. -/
theorem C9_preview_cex :
    print_image grayImg = [[]]
    ∧ grayImg.image_info.width.toNat = 1
    ∧ ((print_image grayImg).getD 0 []).length ≠ grayImg.image_info.width.toNat := by
  exact ⟨rfl, rfl, by decide⟩

/-- Witness for C9 on the 1×1 black image. -/
theorem C9_preview_witness :
    print_image blackImg = blackImg.array_pixels.map (fun row => row.flatMap pixel_chars)
    ∧ pixel_chars ⟨0, 0, 0, 0⟩ = ['@'] :=
  ⟨C9_preview.2.1 blackImg ⟨rfl, by decide⟩, (C9_preview.2.2 ⟨0, 0, 0, 0⟩).1 ⟨rfl, rfl, rfl⟩⟩

/-! ### Editor frame lemmas -/

theorem getD_set_ne {α : Type} (l : List α) (n i : Nat) (a d : α) (h : n ≠ i) :
    (l.set n a).getD i d = l.getD i d := by
  rw [List.getD_eq_getElem?_getD, List.getD_eq_getElem?_getD, List.getElem?_set_ne h]

theorem getD_set_self {α : Type} (l : List α) (n : Nat) (a d : α) (h : n < l.length) :
    (l.set n a).getD n d = a := by
  simp [List.getD_eq_getElem?_getD, List.getElem?_set_self', h]

theorem set_pixel_info (img : BMPImage) (x y : Int) (c : Pixel) :
    (set_pixel img x y c).image_info = img.image_info ∧
      (set_pixel img x y c).hdrs = img.hdrs := by
  unfold set_pixel
  split <;> exact ⟨rfl, rfl⟩

theorem pixel_at_set_pixel_ne (img : BMPImage) (x y : Int) (c : Pixel) (i j : Nat)
    (hne : ¬(x = (i : Int) ∧ y = (j : Int))) :
    pixel_at (set_pixel img x y c) i j = pixel_at img i j := by
  unfold set_pixel
  split
  case isFalse => rfl
  case isTrue hg =>
    simp only [set_pixel_guard, Bool.and_eq_true, decide_eq_true_eq] at hg
    obtain ⟨⟨⟨hx0, _⟩, hy0⟩, _⟩ := hg
    unfold pixel_at updatePixel
    simp only
    by_cases hxi : x.toNat = i
    · have hxz : x = (i : Int) := by omega
      have hyz : y ≠ (j : Int) := fun hy => hne ⟨hxz, hy⟩
      have hyj : y.toNat ≠ j := by omega
      by_cases hlen : x.toNat < img.array_pixels.length
      · rw [hxi] at hlen
        rw [hxi, getD_set_self _ _ _ _ hlen, getD_set_ne _ _ _ _ _ hyj]
      · rw [List.set_eq_of_length_le (by omega)]
    · rw [getD_set_ne _ _ _ _ _ hxi]

theorem pixel_at_set_pixel_self (img : BMPImage) (x y : Int) (c : Pixel)
    (hg : set_pixel_guard img x y = true)
    (hacc : pixel_access_in_bounds img x y = true) :
    pixel_at (set_pixel img x y c) x.toNat y.toNat = c := by
  unfold set_pixel
  rw [if_pos hg]
  simp only [pixel_access_in_bounds, Bool.and_eq_true, decide_eq_true_eq] at hacc
  obtain ⟨h1, h2⟩ := hacc
  unfold pixel_at updatePixel
  simp only
  rw [getD_set_self _ _ _ _ h1, getD_set_self _ _ _ _ h2]

/-- C7 (amended): `set_pixel` is a silent no-op when its guard
`0 ≤ x < width ∧ 0 ≤ y < height` fails; when the guard holds **and** the
access `m_array_pixels[x][y]` is really inside the allocated grid it
writes `color` there; pixels at other coordinates are never touched.
The guard alone does not put the access in bounds: `x` indexes the
rows (of which there are `height`) yet is bounded by `width`, so
in-boundedness needs the extra conditions `x < height ∧ y < width`. -/
theorem C7_set_pixel (img : BMPImage) (x y : Int) (c : Pixel) :
    (set_pixel_guard img x y = false → set_pixel img x y c = img)
    ∧ (set_pixel_guard img x y = true → pixel_access_in_bounds img x y = true →
        pixel_at (set_pixel img x y c) x.toNat y.toNat = c)
    ∧ (∀ i j : Nat, ¬(x = (i : Int) ∧ y = (j : Int)) →
        pixel_at (set_pixel img x y c) i j = pixel_at img i j)
    ∧ (set_pixel_guard img x y = true → dimsOk img →
        x < img.image_info.height → y < img.image_info.width →
        pixel_access_in_bounds img x y = true) := by
  refine ⟨fun h => by simp [set_pixel, h], pixel_at_set_pixel_self img x y c,
    pixel_at_set_pixel_ne img x y c, ?_⟩
  intro hg hdims hxh hyw
  simp only [set_pixel_guard, Bool.and_eq_true, decide_eq_true_eq] at hg
  obtain ⟨⟨⟨hx0, _⟩, hy0⟩, hyh⟩ := hg
  obtain ⟨hlen, hrow⟩ := hdims
  have hxlt : x.toNat < img.array_pixels.length := by omega
  have hmem : img.array_pixels.getD x.toNat [] ∈ img.array_pixels := by
    rw [List.getD_eq_getElem?_getD, List.getElem?_eq_getElem hxlt]
    exact List.getElem_mem hxlt
  have := hrow _ hmem
  simp only [pixel_access_in_bounds, Bool.and_eq_true, decide_eq_true_eq]
  omega

/-- A 1-row, 3-column image: `width = 3`, `height = 1`. -/
def wideImg : BMPImage :=
  ⟨[[⟨7, 7, 7, 0⟩, ⟨7, 7, 7, 0⟩, ⟨7, 7, 7, 0⟩]], ⟨3, 1, 24⟩, []⟩

/-- Counterexample to C7 as stated: on the 3×1 image the call
`set_pixel 2 0` passes the guard (`0 ≤ 2 < width ∧ 0 ≤ 0 < height`)
but the access `m_array_pixels[2][0]` is out of bounds (the grid has
one row), so nothing is written: the claim that the guard implies an
in-bounds write at `(x, y)` is false on non-square images. -/
theorem C7_set_pixel_cex :
    set_pixel_guard wideImg 2 0 = true
    ∧ pixel_access_in_bounds wideImg 2 0 = false
    ∧ set_pixel wideImg 2 0 ⟨1, 1, 1, 0⟩ = wideImg
    ∧ pixel_at (set_pixel wideImg 2 0 ⟨1, 1, 1, 0⟩) 2 0 ≠ (⟨1, 1, 1, 0⟩ : Pixel) := by
  decide

/-- Witness for C7 on a 1×1 image: the guarded in-bounds write lands. -/
theorem C7_set_pixel_witness :
    pixel_at (set_pixel grayImg 0 0 ⟨9, 9, 9, 0⟩) (0 : Int).toNat (0 : Int).toNat
      = (⟨9, 9, 9, 0⟩ : Pixel) :=
  (C7_set_pixel grayImg 0 0 ⟨9, 9, 9, 0⟩).2.1 (by decide) (by decide)

theorem draw_line_loop_preserves (clr : Pixel) (x1 y1 dx dy sx sy : Int) :
    ∀ (fuel : Nat) (x0 y0 err : Int) (img : BMPImage),
      (draw_line_loop clr x1 y1 dx dy sx sy fuel x0 y0 err img).1.image_info = img.image_info
      ∧ (draw_line_loop clr x1 y1 dx dy sx sy fuel x0 y0 err img).1.hdrs = img.hdrs := by
  intro fuel
  induction fuel with
  | zero => intro x0 y0 err img; exact ⟨rfl, rfl⟩
  | succ k ih =>
    intro x0 y0 err img
    simp only [draw_line_loop]
    split_ifs <;>
      first
      | exact set_pixel_info img x0 y0 clr
      | exact ⟨((ih _ _ _ _).1).trans (set_pixel_info img x0 y0 clr).1,
          ((ih _ _ _ _).2).trans (set_pixel_info img x0 y0 clr).2⟩

theorem draw_line_loop_frame (clr : Pixel) (x1 y1 dx dy sx sy : Int) :
    ∀ (fuel : Nat) (x0 y0 err : Int) (img : BMPImage) (i j : Nat),
      ((i : Int), (j : Int)) ∉ (draw_line_loop clr x1 y1 dx dy sx sy fuel x0 y0 err img).2.1 →
      pixel_at (draw_line_loop clr x1 y1 dx dy sx sy fuel x0 y0 err img).1 i j
        = pixel_at img i j := by
  intro fuel
  induction fuel with
  | zero => intro x0 y0 err img i j _; rfl
  | succ k ih =>
    intro x0 y0 err img i j hmem
    simp only [draw_line_loop] at hmem ⊢
    split_ifs at hmem ⊢ <;>
      first
      | (refine pixel_at_set_pixel_ne img x0 y0 clr i j fun hc => ?_
         exact hmem (by simp [hc.1, hc.2]))
      | (simp only [withPoint, List.mem_cons, not_or] at hmem
         obtain ⟨hne, hrest⟩ := hmem
         refine (ih _ _ _ _ i j hrest).trans
           (pixel_at_set_pixel_ne img x0 y0 clr i j fun hc => ?_)
         exact hne (by simp [hc.1, hc.2]))

theorem draw_line_info (img : BMPImage) (x0 y0 x1 y1 : Int) (c : Pixel) :
    (draw_line img x0 y0 x1 y1 c).image_info = img.image_info
    ∧ (draw_line img x0 y0 x1 y1 c).hdrs = img.hdrs :=
  draw_line_loop_preserves c x1 y1 _ _ _ _ (line_fuel x0 y0 x1 y1) x0 y0 _ img

theorem draw_line_frame (img : BMPImage) (x0 y0 x1 y1 : Int) (c : Pixel) (i j : Nat)
    (h : ((i : Int), (j : Int)) ∉ draw_line_points img x0 y0 x1 y1 c) :
    pixel_at (draw_line img x0 y0 x1 y1 c) i j = pixel_at img i j :=
  draw_line_loop_frame c x1 y1 _ _ _ _ (line_fuel x0 y0 x1 y1) x0 y0 _ img i j h

/-- C10: each editor operation leaves the header blob and the parsed
`ImageInfo` (width, height, bit depth) untouched, and changes no pixel
at coordinates other than the points it passes to `set_pixel` (which
itself writes only in-bounds). -/
theorem C10_editor_frame :
    (∀ (img : BMPImage) (x y : Int) (c : Pixel),
        (set_pixel img x y c).image_info = img.image_info
        ∧ (set_pixel img x y c).hdrs = img.hdrs
        ∧ ∀ i j : Nat, ¬(x = (i : Int) ∧ y = (j : Int)) →
            pixel_at (set_pixel img x y c) i j = pixel_at img i j)
    ∧ (∀ (img : BMPImage) (x0 y0 x1 y1 : Int) (c : Pixel),
        (draw_line img x0 y0 x1 y1 c).image_info = img.image_info
        ∧ (draw_line img x0 y0 x1 y1 c).hdrs = img.hdrs
        ∧ ∀ i j : Nat, ((i : Int), (j : Int)) ∉ draw_line_points img x0 y0 x1 y1 c →
            pixel_at (draw_line img x0 y0 x1 y1 c) i j = pixel_at img i j)
    ∧ (∀ (img : BMPImage) (x1 y1 x2 y2 : Int) (c : Pixel),
        (draw_diagonal_cross img x1 y1 x2 y2 c).image_info = img.image_info
        ∧ (draw_diagonal_cross img x1 y1 x2 y2 c).hdrs = img.hdrs
        ∧ ∀ i j : Nat,
            ((i : Int), (j : Int)) ∉ draw_line_points img x1 y1 x2 y2 c →
            ((i : Int), (j : Int)) ∉
              draw_line_points (draw_line img x1 y1 x2 y2 c) x1 y2 x2 y1 c →
            pixel_at (draw_diagonal_cross img x1 y1 x2 y2 c) i j = pixel_at img i j) := by
  refine ⟨?_, ?_, ?_⟩
  · intro img x y c
    exact ⟨(set_pixel_info img x y c).1, (set_pixel_info img x y c).2,
      pixel_at_set_pixel_ne img x y c⟩
  · intro img x0 y0 x1 y1 c
    exact ⟨(draw_line_info img x0 y0 x1 y1 c).1, (draw_line_info img x0 y0 x1 y1 c).2,
      draw_line_frame img x0 y0 x1 y1 c⟩
  · intro img x1 y1 x2 y2 c
    refine ⟨?_, ?_, ?_⟩
    · exact ((draw_line_info _ x1 y2 x2 y1 c).1).trans (draw_line_info img x1 y1 x2 y2 c).1
    · exact ((draw_line_info _ x1 y2 x2 y1 c).2).trans (draw_line_info img x1 y1 x2 y2 c).2
    · intro i j h1 h2
      exact (draw_line_frame _ x1 y2 x2 y1 c i j h2).trans
        (draw_line_frame img x1 y1 x2 y2 c i j h1)

/-- Witness for C10: a diagonal cross drawn far outside a 1×1 image
leaves its info and its pixel (0,0) unchanged. -/
theorem C10_editor_frame_witness :
    (draw_diagonal_cross grayImg 5 5 6 6 ⟨9, 9, 9, 0⟩).image_info = grayImg.image_info
    ∧ pixel_at (draw_diagonal_cross grayImg 5 5 6 6 ⟨9, 9, 9, 0⟩) 0 0 = pixel_at grayImg 0 0 := by
  have h := C10_editor_frame.2.2 grayImg 5 5 6 6 ⟨9, 9, 9, 0⟩
  exact ⟨h.1, h.2.2 0 0 (by decide) (by decide)⟩

theorem natAbs_cast_of_sign {s z : Int} (hs : s = 1 ∨ s = -1) (h : 0 ≤ s * z) :
    (z.natAbs : Int) = s * z := by
  rcases hs with rfl | rfl <;> omega

theorem one_le_of_sign {s z : Int} (hs : s = 1 ∨ s = -1) (h0 : 0 ≤ s * z) (hz : z ≠ 0) :
    1 ≤ s * z := by
  rcases hs with rfl | rfl <;> omega

theorem draw_line_loop_reaches (clr : Pixel) (x1 y1 dx dy sx sy : Int)
    (hdx : 0 ≤ dx) (hdy : dy ≤ 0)
    (hsx : sx = 1 ∨ sx = -1) (hsy : sy = 1 ∨ sy = -1) :
    ∀ (fuel : Nat) (x0 y0 err : Int) (img : BMPImage),
      0 ≤ sx * (x1 - x0) → sx * (x1 - x0) ≤ dx →
      0 ≤ sy * (y1 - y0) → sy * (y1 - y0) ≤ -dy →
      err = dx + dy - sx * (x1 - x0) * dy - sy * (y1 - y0) * dx →
      (x1 - x0).natAbs + (y1 - y0).natAbs < fuel →
      (draw_line_loop clr x1 y1 dx dy sx sy fuel x0 y0 err img).2.2 = true
      ∧ (x1, y1) ∈ (draw_line_loop clr x1 y1 dx dy sx sy fuel x0 y0 err img).2.1 := by
  intro fuel
  induction fuel with
  | zero => intro x0 y0 err img _ _ _ _ _ hf; exact absurd hf (Nat.not_lt_zero _)
  | succ k ih =>
    intro x0 y0 err img hax haxd hby hbyd herr hfuel
    have hstepx : sx * (x1 - (x0 + sx)) = sx * (x1 - x0) - 1 := by
      rcases hsx with rfl | rfl <;> ring
    have hstepy : sy * (y1 - (y0 + sy)) = sy * (y1 - y0) - 1 := by
      rcases hsy with rfl | rfl <;> ring
    simp only [draw_line_loop]
    split_ifs with c1 c2 c3 c4 c5 c6 c7
    · exact ⟨rfl, by simp [c1.1, c1.2]⟩
    · exfalso
      subst c3
      have hyne : y0 ≠ y1 := fun h => c1 ⟨rfl, h⟩
      have hB1 : 1 ≤ sy * (y1 - y0) := one_le_of_sign hsy hby (by omega)
      have hdy1 : dy ≤ -1 := by linarith
      have herr2 : err = dx + dy - sy * (y1 - y0) * dx := by linear_combination herr
      have hseed : 0 ≤ dx * (sy * (y1 - y0) - 1) := mul_nonneg hdx (by linarith)
      linarith [hseed]
    · exfalso
      subst c5
      have hA1 : 1 ≤ sx * (x1 - x0) := one_le_of_sign hsx hax (by omega)
      have herr2 : err = dx + dy - sx * (x1 - x0) * dy := by linear_combination herr
      have hdxpos : 1 ≤ dx := by linarith
      have hseed : 0 ≤ (-dy) * (sx * (x1 - x0) - 1) := mul_nonneg (by linarith) (by linarith)
      linarith [hseed]
    · have hxne : x1 - x0 ≠ 0 := by omega
      have hyne : y1 - y0 ≠ 0 := by omega
      have hA1 := one_le_of_sign hsx hax hxne
      have hB1 := one_le_of_sign hsy hby hyne
      have hAc := natAbs_cast_of_sign hsx hax
      have hBc := natAbs_cast_of_sign hsy hby
      have hAc' : ((x1 - (x0 + sx)).natAbs : Int) = sx * (x1 - x0) - 1 := by
        rw [← hstepx]
        exact natAbs_cast_of_sign hsx (by rw [hstepx]; linarith)
      have hBc' : ((y1 - (y0 + sy)).natAbs : Int) = sy * (y1 - y0) - 1 := by
        rw [← hstepy]
        exact natAbs_cast_of_sign hsy (by rw [hstepy]; linarith)
      have hcnt : ((x1 - (x0 + sx)).natAbs : Int) + 1 = ((x1 - x0).natAbs : Int) := by
        rw [hAc', hAc]; ring
      have hcnt2 : ((y1 - (y0 + sy)).natAbs : Int) + 1 = ((y1 - y0).natAbs : Int) := by
        rw [hBc', hBc]; ring
      have h := ih (x0 + sx) (y0 + sy) (err + dy + dx) (set_pixel img x0 y0 clr)
        (by rw [hstepx]; linarith) (by rw [hstepx]; linarith)
        (by rw [hstepy]; linarith) (by rw [hstepy]; linarith)
        (by rw [hstepx, hstepy]; linear_combination herr)
        (by omega)
      exact ⟨h.1, by simp only [withPoint, List.mem_cons]; exact Or.inr h.2⟩
    · have hxne : x1 - x0 ≠ 0 := by omega
      have hA1 := one_le_of_sign hsx hax hxne
      have hAc := natAbs_cast_of_sign hsx hax
      have hAc' : ((x1 - (x0 + sx)).natAbs : Int) = sx * (x1 - x0) - 1 := by
        rw [← hstepx]
        exact natAbs_cast_of_sign hsx (by rw [hstepx]; linarith)
      have hcnt : ((x1 - (x0 + sx)).natAbs : Int) + 1 = ((x1 - x0).natAbs : Int) := by
        rw [hAc', hAc]; ring
      have h := ih (x0 + sx) y0 (err + dy) (set_pixel img x0 y0 clr)
        (by rw [hstepx]; linarith) (by rw [hstepx]; linarith) hby hbyd
        (by rw [hstepx]; linear_combination herr)
        (by omega)
      exact ⟨h.1, by simp only [withPoint, List.mem_cons]; exact Or.inr h.2⟩
    · exfalso
      subst c7
      have hxne : x1 - x0 ≠ 0 := fun h => c1 ⟨by omega, rfl⟩
      have hA1 := one_le_of_sign hsx hax hxne
      have herr2 : err = dx + dy - sx * (x1 - x0) * dy := by linear_combination herr
      have hseed : 0 ≤ (-dy) * (2 * (sx * (x1 - x0)) - 1) := mul_nonneg (by linarith) (by linarith)
      have hc2 : 2 * err < dy := not_le.mp c2
      linarith [hseed]
    · have hyne : y1 - y0 ≠ 0 := by omega
      have hB1 := one_le_of_sign hsy hby hyne
      have hBc := natAbs_cast_of_sign hsy hby
      have hBc' : ((y1 - (y0 + sy)).natAbs : Int) = sy * (y1 - y0) - 1 := by
        rw [← hstepy]
        exact natAbs_cast_of_sign hsy (by rw [hstepy]; linarith)
      have hcnt2 : ((y1 - (y0 + sy)).natAbs : Int) + 1 = ((y1 - y0).natAbs : Int) := by
        rw [hBc', hBc]; ring
      have h := ih x0 (y0 + sy) (err + dx) (set_pixel img x0 y0 clr)
        hax haxd (by rw [hstepy]; linarith) (by rw [hstepy]; linarith)
        (by rw [hstepy]; linear_combination herr)
        (by omega)
      exact ⟨h.1, by simp only [withPoint, List.mem_cons]; exact Or.inr h.2⟩
    · exfalso
      have hc2 : 2 * err < dy := not_le.mp c2
      have hc6 : dx < 2 * err := not_le.mp c6
      linarith

theorem draw_line_loop_head (clr : Pixel) (x1 y1 dx dy sx sy : Int)
    (k : Nat) (x0 y0 err : Int) (img : BMPImage) :
    ∃ rest, (draw_line_loop clr x1 y1 dx dy sx sy (k + 1) x0 y0 err img).2.1
      = (x0, y0) :: rest := by
  simp only [draw_line_loop]
  split_ifs <;> exact ⟨_, rfl⟩

/-- C8: for every pair of endpoints, `draw_line`'s loop reaches a
`break` within `line_fuel` iterations — the `while (true)` loop
terminates — and the points it passes to `set_pixel` include both
endpoints, `(x0, y0)` being sampled first; in the degenerate case
`x0 = x1 ∧ y0 = y1` exactly the single point `(x0, y0)` is sampled. -/
theorem C8_draw_line_terminates (img : BMPImage) (clr : Pixel) (x0 y0 x1 y1 : Int) :
    (draw_line_run img x0 y0 x1 y1 clr).2.2 = true
    ∧ (x0, y0) ∈ draw_line_points img x0 y0 x1 y1 clr
    ∧ (x1, y1) ∈ draw_line_points img x0 y0 x1 y1 clr
    ∧ draw_line img x0 y0 x1 y1 clr = (draw_line_run img x0 y0 x1 y1 clr).1
    ∧ (x0 = x1 → y0 = y1 → draw_line_points img x0 y0 x1 y1 clr = [(x0, y0)]) := by
  have hsx : (if x0 < x1 then (1 : Int) else -1) = 1
      ∨ (if x0 < x1 then (1 : Int) else -1) = -1 := by
    split_ifs <;> simp
  have hsy : (if y0 < y1 then (1 : Int) else -1) = 1
      ∨ (if y0 < y1 then (1 : Int) else -1) = -1 := by
    split_ifs <;> simp
  have hA : (if x0 < x1 then (1 : Int) else -1) * (x1 - x0) = |x1 - x0| := by
    rw [Int.abs_eq_natAbs]
    split_ifs <;> omega
  have hB : (if y0 < y1 then (1 : Int) else -1) * (y1 - y0) = |y1 - y0| := by
    rw [Int.abs_eq_natAbs]
    split_ifs <;> omega
  have hmain := draw_line_loop_reaches clr x1 y1 (|x1 - x0|) (-|y1 - y0|)
    (if x0 < x1 then (1 : Int) else -1) (if y0 < y1 then (1 : Int) else -1)
    (abs_nonneg _) (neg_nonpos.mpr (abs_nonneg _)) hsx hsy
    (line_fuel x0 y0 x1 y1) x0 y0 (|x1 - x0| + -|y1 - y0|) img
    (by rw [hA]; exact abs_nonneg _) (by rw [hA])
    (by rw [hB]; exact abs_nonneg _) (by rw [hB]; simp)
    (by rw [hA, hB]; ring)
    (by simp [line_fuel])
  obtain ⟨rest, hhead⟩ := draw_line_loop_head clr x1 y1 (|x1 - x0|) (-|y1 - y0|)
    (if x0 < x1 then (1 : Int) else -1) (if y0 < y1 then (1 : Int) else -1)
    ((x1 - x0).natAbs + (y1 - y0).natAbs) x0 y0 (|x1 - x0| + -|y1 - y0|) img
  refine ⟨hmain.1, ?_, hmain.2, rfl, ?_⟩
  · show (x0, y0) ∈ (draw_line_loop clr x1 y1 (|x1 - x0|) (-|y1 - y0|)
      (if x0 < x1 then (1 : Int) else -1) (if y0 < y1 then (1 : Int) else -1)
      ((x1 - x0).natAbs + (y1 - y0).natAbs + 1) x0 y0 (|x1 - x0| + -|y1 - y0|) img).2.1
    rw [hhead]
    exact List.mem_cons_self (x0, y0) rest
  · intro h1 h2
    subst h1
    subst h2
    show (draw_line_run img x0 y0 x0 y0 clr).2.1 = [(x0, y0)]
    simp [draw_line_run, line_fuel, draw_line_loop]

/-- Witness for C8: the degenerate call at `(2,2)` completes and
samples exactly its single point. -/
theorem C8_draw_line_terminates_witness :
    (draw_line_run grayImg 2 2 2 2 ⟨1, 1, 1, 0⟩).2.2 = true
    ∧ draw_line_points grayImg 2 2 2 2 ⟨1, 1, 1, 0⟩ = [(2, 2)] := by
  have h := C8_draw_line_terminates grayImg ⟨1, 1, 1, 0⟩ 2 2 2 2
  exact ⟨h.1, h.2.2.2.2 rfl rfl⟩


theorem readU8_append (pre l2 : List Nat) (k : Nat) :
    readU8 (pre ++ l2) (pre.length + k) = readU8 l2 k := by
  unfold readU8
  rw [List.getElem?_append_right (by omega)]
  congr 1
  omega

theorem flatMap_length_const {α β : Type} {c : Nat} (l : List α) (g : α → List β)
    (h : ∀ a ∈ l, (g a).length = c) : (l.flatMap g).length = l.length * c := by
  induction l with
  | nil => simp
  | cons a l ih =>
    simp only [List.flatMap_cons, List.length_append, List.length_cons,
      h a (by simp), ih (fun b hb => h b (by simp [hb]))]
    ring

theorem flatMap_congr_mem {α β : Type} (l : List α) (f g : α → List β)
    (h : ∀ a ∈ l, f a = g a) : l.flatMap f = l.flatMap g := by
  induction l with
  | nil => rfl
  | cons a l ih =>
    simp only [List.flatMap_cons, h a (by simp),
      ih (fun b hb => h b (by simp [hb]))]

theorem readPixel_write (bc : Nat) (pre post : List Nat) (p : Pixel)
    (ha : bc ≠ 32 → p.a = 0) :
    readPixel (pre ++ write_pixel bc p ++ post) bc pre.length
      = some (p, pre.length + bytesPerPixel bc) := by
  obtain ⟨pr, pg, pb, pa⟩ := p
  have e : ∀ k, readU8 (pre ++ write_pixel bc ⟨pr, pg, pb, pa⟩ ++ post) (pre.length + k)
      = (write_pixel bc ⟨pr, pg, pb, pa⟩ ++ post)[k]? := by
    intro k
    rw [List.append_assoc]
    exact readU8_append pre _ k
  clear e
  by_cases hbc : bc = 32
  · subst hbc
    have f0 : readU8 (pre ++ pb :: pg :: pr :: pa :: post) pre.length = some pb := by
      simpa [readU8] using readU8_append pre (pb :: pg :: pr :: pa :: post) 0
    have f1 : readU8 (pre ++ pb :: pg :: pr :: pa :: post) (pre.length + 1) = some pg := by
      simpa [readU8] using readU8_append pre (pb :: pg :: pr :: pa :: post) 1
    have f2 : readU8 (pre ++ pb :: pg :: pr :: pa :: post) (pre.length + 2) = some pr := by
      simpa [readU8] using readU8_append pre (pb :: pg :: pr :: pa :: post) 2
    have f3 : readU8 (pre ++ pb :: pg :: pr :: pa :: post) (pre.length + 3) = some pa := by
      simpa [readU8] using readU8_append pre (pb :: pg :: pr :: pa :: post) 3
    simp [readPixel, write_pixel, bytesPerPixel, f0, f1, f2, f3]
  · have ha0 : pa = 0 := ha hbc
    subst ha0
    have f0 : readU8 (pre ++ pb :: pg :: pr :: post) pre.length = some pb := by
      simpa [readU8] using readU8_append pre (pb :: pg :: pr :: post) 0
    have f1 : readU8 (pre ++ pb :: pg :: pr :: post) (pre.length + 1) = some pg := by
      simpa [readU8] using readU8_append pre (pb :: pg :: pr :: post) 1
    have f2 : readU8 (pre ++ pb :: pg :: pr :: post) (pre.length + 2) = some pr := by
      simpa [readU8] using readU8_append pre (pb :: pg :: pr :: post) 2
    simp [readPixel, write_pixel, bytesPerPixel, hbc, f0, f1, f2]


theorem readRowPixels_write (bc : Nat) :
    ∀ (row : List Pixel) (pre post : List Nat),
      (∀ p ∈ row, bc ≠ 32 → p.a = 0) →
      readRowPixels (pre ++ row.flatMap (write_pixel bc) ++ post) bc row.length pre.length
        = some (row, pre.length + row.length * bytesPerPixel bc) := by
  intro row
  induction row with
  | nil => intro pre post _; simp [readRowPixels]
  | cons p row ih =>
    intro pre post hal
    simp only [readRowPixels, List.flatMap_cons, List.length_cons]
    rw [show pre ++ (write_pixel bc p ++ row.flatMap (write_pixel bc)) ++ post
        = pre ++ write_pixel bc p ++ (row.flatMap (write_pixel bc) ++ post) by
      simp only [List.append_assoc]]
    rw [readPixel_write bc pre (row.flatMap (write_pixel bc) ++ post) p (hal p (by simp))]
    rw [show pre ++ write_pixel bc p ++ (row.flatMap (write_pixel bc) ++ post)
        = (pre ++ write_pixel bc p) ++ row.flatMap (write_pixel bc) ++ post by
      simp only [List.append_assoc]]
    have hwlen : (pre ++ write_pixel bc p).length = pre.length + bytesPerPixel bc := by
      simp [write_pixel_length]
    have hrec := ih (pre ++ write_pixel bc p) post (fun q hq => hal q (by simp [hq]))
    rw [hwlen] at hrec
    simp only [Option.bind_eq_bind, Option.some_bind]
    rw [hrec]
    simp only [Option.pure_def, Option.some_bind, Option.some.injEq, Prod.mk.injEq, true_and]
    ring

theorem readRows_write (bc pad : Nat) :
    ∀ (rows : List (List Pixel)) (w : Nat) (pre post : List Nat),
      (∀ row ∈ rows, row.length = w) →
      (∀ row ∈ rows, ∀ p ∈ row, bc ≠ 32 → p.a = 0) →
      readRows (pre ++ rows.flatMap
          (fun row => row.flatMap (write_pixel bc) ++ List.replicate pad 0) ++ post)
        bc w pad rows.length pre.length
      = some (rows, pre.length + rows.length * (w * bytesPerPixel bc + pad)) := by
  intro rows
  induction rows with
  | nil => intro w pre post _ _; simp [readRows]
  | cons row rows ih =>
    intro w pre post hw hal
    have hwr : row.length = w := hw row (by simp)
    subst hwr
    simp only [readRows, List.flatMap_cons, List.length_cons]
    rw [show pre ++ ((row.flatMap (write_pixel bc) ++ List.replicate pad 0) ++ rows.flatMap
          (fun r => r.flatMap (write_pixel bc) ++ List.replicate pad 0)) ++ post
        = pre ++ row.flatMap (write_pixel bc) ++ (List.replicate pad 0 ++ (rows.flatMap
          (fun r => r.flatMap (write_pixel bc) ++ List.replicate pad 0) ++ post)) by
      simp only [List.append_assoc]]
    rw [readRowPixels_write bc row pre _ (hal row (by simp))]
    simp only [Option.bind_eq_bind, Option.some_bind]
    rw [show pre ++ row.flatMap (write_pixel bc) ++ (List.replicate pad 0 ++ (rows.flatMap
          (fun r => r.flatMap (write_pixel bc) ++ List.replicate pad 0) ++ post))
        = (pre ++ row.flatMap (write_pixel bc) ++ List.replicate pad 0) ++ rows.flatMap
          (fun r => r.flatMap (write_pixel bc) ++ List.replicate pad 0) ++ post by
      simp only [List.append_assoc]]
    have hplen : (pre ++ row.flatMap (write_pixel bc) ++ List.replicate pad 0).length
        = pre.length + row.length * bytesPerPixel bc + pad := by
      have hfl := flatMap_length_const row (write_pixel bc) (fun p _ => write_pixel_length bc p)
      simp [hfl]
      ring
    have hrec := ih row.length (pre ++ row.flatMap (write_pixel bc) ++ List.replicate pad 0)
      post (fun r hr => hw r (by simp [hr])) (fun r hr => hal r (by simp [hr]))
    rw [hplen] at hrec
    rw [hrec]
    simp only [Option.pure_def, Option.some_bind, Option.some.injEq, Prod.mk.injEq, true_and]
    ring

theorem getD_mem {α : Type} (l : List α) (i : Nat) (d : α) (h : i < l.length) :
    l.getD i d ∈ l := by
  rw [List.getD_eq_getElem?_getD, List.getElem?_eq_getElem h]
  exact List.getElem_mem h

theorem write_row_eq (img : BMPImage) (i : Nat) (row : List Pixel)
    (hrow : img.array_pixels.getD i [] = row)
    (hlen : row.length = img.image_info.width.toNat) :
    write_row img i = row.flatMap (write_pixel img.image_info.bit_count) := by
  unfold write_row
  rw [← hlen]
  have hpx : ∀ j, pixel_at img i j = row.getD j default := by
    intro j
    rw [pixel_at, hrow]
  simp only [hpx]
  exact flatMap_range_getD row default _

theorem write_image_eq (img : BMPImage) (hdims : dimsOk img) :
    write_image img = img.hdrs
      ++ img.array_pixels.flatMap (fun row =>
          row.flatMap (write_pixel img.image_info.bit_count)
          ++ List.replicate (rowPadding img.image_info.width).toNat 0) := by
  obtain ⟨hlen, hrow⟩ := hdims
  unfold write_image
  congr 1
  rw [← hlen]
  have h1 : (List.range img.array_pixels.length).flatMap
      (fun i => write_row img i ++ List.replicate (rowPadding img.image_info.width).toNat 0)
      = (List.range img.array_pixels.length).flatMap
        (fun i => (img.array_pixels.getD i []).flatMap (write_pixel img.image_info.bit_count)
          ++ List.replicate (rowPadding img.image_info.width).toNat 0) := by
    refine flatMap_congr_mem _ _ _ (fun i hi => ?_)
    rw [List.mem_range] at hi
    rw [write_row_eq img i (img.array_pixels.getD i []) rfl
      (hrow _ (getD_mem _ _ _ hi))]
  rw [h1]
  exact flatMap_range_getD img.array_pixels []
    (fun row => row.flatMap (write_pixel img.image_info.bit_count)
      ++ List.replicate (rowPadding img.image_info.width).toNat 0)

theorem read_array_pixels_some_inv {f : List Nat} {off : Nat} {w h : Int} {bc : Nat}
    {td : Bool} {pixels : List (List Pixel)}
    (hsome : read_array_pixels f off w h bc td = some pixels) :
    ∃ rows pos, readRows f bc w.toNat (rowPadding w).toNat h.toNat off = some (rows, pos)
      ∧ pixels = fixRows td rows := by
  unfold read_array_pixels at hsome
  split at hsome
  · exact absurd hsome (by simp)
  next rows pos heq =>
    cases hsome
    exact ⟨rows, pos, heq, rfl⟩

theorem read_image_ok_inv {f : List Nat} {img : BMPImage}
    (h : read_image f = .ok img) :
    ∃ off w h0 bc rows pos,
      readU16 f 0 = some 0x4D42 ∧ readU32 f 10 = some off ∧
      readI32 f 18 = some w ∧ readI32 f 22 = some h0 ∧ readU16 f 28 = some bc ∧
      readRows f bc w.toNat (rowPadding w).toNat
        (if h0 < 0 then -h0 else h0).toNat off = some (rows, pos) ∧
      img = ⟨fixRows (decide (h0 < 0)) rows,
        ⟨w, if h0 < 0 then -h0 else h0, bc⟩, f.take off⟩ := by
  unfold read_image at h
  split at h
  · exact absurd h (by simp)
  next sig hsig =>
    split at h
    case isTrue hv =>
      subst hv
      split at h
      · exact absurd h (by simp)
      next off hoff =>
        split at h
        case h_2 => exact absurd h (by simp)
        case h_3 => exact absurd h (by simp)
        case h_1 w h0 hw hh0 =>
          split at h
          case isTrue hneg =>
            dsimp only [] at h
            split at h
            · exact absurd h (by simp)
            next bc hbc =>
              split at h
              · exact absurd h (by simp)
              next pixels hpix =>
                cases h
                obtain ⟨rows, pos, hrows, hfix⟩ := read_array_pixels_some_inv hpix
                subst hfix
                refine ⟨off, w, h0, bc, rows, pos, hsig, hoff, hw, hh0, hbc, ?_, ?_⟩
                · rw [if_pos hneg]
                  exact hrows
                · rw [if_pos hneg]
          case isFalse hneg =>
            dsimp only [] at h
            split at h
            · exact absurd h (by simp)
            next bc hbc =>
              split at h
              · exact absurd h (by simp)
              next pixels hpix =>
                cases h
                obtain ⟨rows, pos, hrows, hfix⟩ := read_array_pixels_some_inv hpix
                subst hfix
                refine ⟨off, w, h0, bc, rows, pos, hsig, hoff, hw, hh0, hbc, ?_, ?_⟩
                · rw [if_neg hneg]
                  exact hrows
                · rw [if_neg hneg]
    case isFalse => exact absurd h (by simp)

/-- C1 (amended): decode, encode, decode again.  For a file whose
height field is nonnegative (bottom-up, the BMP default) the second
decode reproduces the first: the grids agree at every pixel.  For a
top-down file (`height0 < 0`) the second decode yields the row-reverse
of the first — the round trip is **not** the identity there, because
the decoder flips top-down files into bottom-up memory order while the
encoder re-emits memory order under the original negative height field.
`ImageInfo` and the header blob always round-trip. -/
theorem C1_round_trip (f : List Nat) (img img2 : BMPImage) (off : Nat) (height0 : Int)
    (hoffH : readU32 f 10 = some off)
    (hhH : readI32 f 22 = some height0)
    (hoff30 : 30 ≤ off) (hoffle : off ≤ f.length)
    (hok : read_image f = .ok img)
    (hok2 : read_image (write_image img) = .ok img2) :
    (0 ≤ height0 → img2.array_pixels = img.array_pixels)
    ∧ (height0 < 0 → img2.array_pixels = img.array_pixels.reverse)
    ∧ img2.image_info = img.image_info ∧ img2.hdrs = img.hdrs := by
  obtain ⟨off', w, h0, bc, rows, pos, hsig, hoff', hw, hh', hbc, hrows, himg⟩ :=
    read_image_ok_inv hok
  rw [hoffH] at hoff'
  have hoffe : off = off' := Option.some.inj hoff'
  subst hoffe
  rw [hhH] at hh'
  have hh0e : height0 = h0 := Option.some.inj hh'
  subst hh0e
  subst himg
  obtain ⟨hrlen, hrall, hposf, halpha⟩ := readRows_spec hrows
  have htklen : (f.take off).length = off := by
    rw [List.length_take]
    omega
  have hmlen : (fixRows (decide (height0 < 0)) rows).length
      = (if height0 < 0 then -height0 else height0).toNat := by
    unfold fixRows
    split <;> simp [hrlen]
  have hmall : ∀ row ∈ fixRows (decide (height0 < 0)) rows, row.length = w.toNat := by
    unfold fixRows
    split
    · intro r hr
      exact hrall r (List.mem_reverse.mp hr)
    · exact hrall
  have hmal : ∀ row ∈ fixRows (decide (height0 < 0)) rows, ∀ p ∈ row, bc ≠ 32 → p.a = 0 := by
    unfold fixRows
    split
    · intro r hr
      exact halpha r (List.mem_reverse.mp hr)
    · exact halpha
  have hdims : dimsOk ⟨fixRows (decide (height0 < 0)) rows,
      ⟨w, if height0 < 0 then -height0 else height0, bc⟩, f.take off⟩ := ⟨hmlen, hmall⟩
  have hw_eq := write_image_eq _ hdims
  dsimp only [] at hw_eq
  have hpre : ∀ p : Nat, p < off →
      readU8 (write_image ⟨fixRows (decide (height0 < 0)) rows,
        ⟨w, if height0 < 0 then -height0 else height0, bc⟩, f.take off⟩) p = readU8 f p := by
    intro p hp
    rw [hw_eq]
    unfold readU8
    rw [List.getElem?_append_left (by rw [htklen]; exact hp)]
    simp [List.getElem?_take, hp]
  have h16_0 : readU16 (write_image ⟨fixRows (decide (height0 < 0)) rows,
      ⟨w, if height0 < 0 then -height0 else height0, bc⟩, f.take off⟩) 0 = readU16 f 0 := by
    unfold readU16
    rw [hpre 0 (by omega), hpre 1 (by omega)]
  have h32_10 : readU32 (write_image ⟨fixRows (decide (height0 < 0)) rows,
      ⟨w, if height0 < 0 then -height0 else height0, bc⟩, f.take off⟩) 10 = readU32 f 10 := by
    unfold readU32
    rw [hpre 10 (by omega), hpre 11 (by omega), hpre 12 (by omega), hpre 13 (by omega)]
  have h32_18 : readI32 (write_image ⟨fixRows (decide (height0 < 0)) rows,
      ⟨w, if height0 < 0 then -height0 else height0, bc⟩, f.take off⟩) 18 = readI32 f 18 := by
    unfold readI32 readU32
    rw [hpre 18 (by omega), hpre 19 (by omega), hpre 20 (by omega), hpre 21 (by omega)]
  have h32_22 : readI32 (write_image ⟨fixRows (decide (height0 < 0)) rows,
      ⟨w, if height0 < 0 then -height0 else height0, bc⟩, f.take off⟩) 22 = readI32 f 22 := by
    unfold readI32 readU32
    rw [hpre 22 (by omega), hpre 23 (by omega), hpre 24 (by omega), hpre 25 (by omega)]
  have h16_28 : readU16 (write_image ⟨fixRows (decide (height0 < 0)) rows,
      ⟨w, if height0 < 0 then -height0 else height0, bc⟩, f.take off⟩) 28 = readU16 f 28 := by
    unfold readU16
    rw [hpre 28 (by omega), hpre 29 (by omega)]
  have hread2 : readRows (write_image ⟨fixRows (decide (height0 < 0)) rows,
      ⟨w, if height0 < 0 then -height0 else height0, bc⟩, f.take off⟩)
      bc w.toNat (rowPadding w).toNat
      (if height0 < 0 then -height0 else height0).toNat off
      = some (fixRows (decide (height0 < 0)) rows,
          off + (if height0 < 0 then -height0 else height0).toNat
            * (w.toNat * bytesPerPixel bc + (rowPadding w).toNat)) := by
    have hwr := readRows_write bc (rowPadding w).toNat
      (fixRows (decide (height0 < 0)) rows) w.toNat (f.take off) [] hmall hmal
    rw [List.append_nil, htklen, hmlen] at hwr
    rw [hw_eq]
    exact hwr
  have hdec2 := read_image_eq (h16_0.trans hsig) (h32_10.trans hoffH)
    (h32_18.trans hw) (h32_22.trans hhH) (h16_28.trans hbc) hread2
  rw [hok2] at hdec2
  have himg2 := Except.ok.inj hdec2
  subst himg2
  have htake2 : (write_image ⟨fixRows (decide (height0 < 0)) rows,
      ⟨w, if height0 < 0 then -height0 else height0, bc⟩, f.take off⟩).take off
      = f.take off := by
    rw [hw_eq]
    exact List.take_left' htklen
  refine ⟨?_, ?_, ?_, ?_⟩
  · intro hpos0
    have : decide (height0 < 0) = false := decide_eq_false (by omega)
    simp [this, fixRows]
  · intro hneg0
    have : decide (height0 < 0) = true := decide_eq_true hneg0
    simp [this, fixRows]
  · rfl
  · exact htake2


/-- `read_image fTD`: the disk rows reversed into memory. -/
def imgFTD : BMPImage := ⟨[[pixB], [pixA]], ⟨1, 2, 24⟩, fTD.take 30⟩

/-- `read_image (write_image imgFTD)`: reversed once more. -/
def imgFTDr : BMPImage := ⟨[[pixA], [pixB]], ⟨1, 2, 24⟩, fTD.take 30⟩

/-- Witness for C1 at the top-down file `fTD`: the second decode is the
row-reverse of the first. -/
theorem C1_round_trip_witness :
    imgFTDr.array_pixels = imgFTD.array_pixels.reverse
    ∧ imgFTDr.image_info = imgFTD.image_info ∧ imgFTDr.hdrs = imgFTD.hdrs := by
  have h := C1_round_trip fTD imgFTD imgFTDr 30 (-2) rfl (by decide) (by decide) (by decide) rfl rfl
  exact ⟨h.2.1 (by decide), h.2.2.1, h.2.2.2⟩

/-- Counterexample to C1 as stated: on the top-down file `fTD` (height
field `-2`, two distinct rows) the pixel data of
`decode (encode (decode fTD))` differs from that of `decode fTD`
already at (0,0). -/
theorem C1_round_trip_cex :
    read_image fTD = .ok imgFTD
    ∧ read_image (write_image imgFTD) = .ok imgFTDr
    ∧ pixel_at imgFTDr 0 0 ≠ pixel_at imgFTD 0 0 :=
  ⟨rfl, rfl, by decide⟩

theorem fixRows_length (td : Bool) (rows : List (List Pixel)) :
    (fixRows td rows).length = rows.length := by
  unfold fixRows
  split <;> simp

theorem fixRows_mem {td : Bool} {rows : List (List Pixel)} {row : List Pixel} :
    row ∈ fixRows td rows ↔ row ∈ rows := by
  unfold fixRows
  split <;> simp

/-- C4 (amended): the encoder echoes the header blob byte-for-byte
(including the original height sign) and writes the in-memory rows in
index order `0 .. height-1`.  Since decode normalizes memory to
bottom-up order, the output's data section is the bottom-up row
sequence `fixRows top_down rows` whatever the input's on-disk
orientation was — the effective output order is bottom-up, not
top-down. -/
theorem C4_encoder_order (f : List Nat) (img : BMPImage) (off : Nat) (w height0 : Int)
    (bc : Nat) (rows : List (List Pixel)) (pos : Nat)
    (hsig : readU16 f 0 = some 0x4D42)
    (hoff : readU32 f 10 = some off) (hw : readI32 f 18 = some w)
    (hh : readI32 f 22 = some height0) (hbc : readU16 f 28 = some bc)
    (hrows : readRows f bc w.toNat (rowPadding w).toNat
        (if height0 < 0 then -height0 else height0).toNat off = some (rows, pos))
    (hok : read_image f = .ok img) :
    img.hdrs = f.take off
    ∧ img.array_pixels = fixRows (decide (height0 < 0)) rows
    ∧ write_image img = f.take off
        ++ (fixRows (decide (height0 < 0)) rows).flatMap
            (fun row => row.flatMap (write_pixel bc)
              ++ List.replicate (rowPadding w).toNat 0) := by
  have he := read_image_eq hsig hoff hw hh hbc hrows
  rw [hok] at he
  have h1 := Except.ok.inj he
  subst h1
  obtain ⟨hrlen, hrall, hposf, halpha⟩ := readRows_spec hrows
  refine ⟨rfl, rfl, ?_⟩
  have hdims : dimsOk ⟨fixRows (decide (height0 < 0)) rows,
      ⟨w, if height0 < 0 then -height0 else height0, bc⟩, f.take off⟩ := by
    constructor
    · rw [fixRows_length]
      exact hrlen
    · intro row hr
      exact hrall row (fixRows_mem.mp hr)
  exact write_image_eq _ hdims

/-- Witness for C4 at `fBU`. -/
theorem C4_encoder_order_witness :
    imgBU.hdrs = fBU.take 30
    ∧ write_image imgBU = fBU.take 30
        ++ (fixRows (decide ((2 : Int) < 0)) [[pixA], [pixB]]).flatMap
            (fun row => row.flatMap (write_pixel 24)
              ++ List.replicate (rowPadding 1).toNat 0) := by
  have h := C4_encoder_order fBU imgBU 30 1 2 24 [[pixA], [pixB]] 38
    rfl rfl rfl rfl rfl rfl rfl
  exact ⟨h.1, h.2.2⟩

/-- The bytes the claim predicts for `encode (decode fBU)`: `fBU`'s
header followed by the rows in top-down (visual top first) order. -/
def fBUrev : List Nat :=
  [0x42, 0x4D, 0, 0, 0, 0, 0, 0, 0, 0, 30, 0, 0, 0, 0, 0, 0, 0,
   1, 0, 0, 0, 2, 0, 0, 0, 0, 0, 24, 0,
   40, 50, 60, 0, 10, 20, 30, 0]

/-- Counterexample to C4's conclusion: for the bottom-up input `fBU`
the claim says the output's effective on-disk row order is top-down,
i.e. the bytes `fBUrev` (visual top row, `pixB`'s, first); the encoder
actually reproduces `fBU` itself, whose data section is in bottom-up
order. -/
theorem C4_encoder_order_cex :
    (read_image fBU).toOption.map write_image = some fBU
    ∧ fBU ≠ fBUrev :=
  ⟨rfl, by decide⟩

end BMP
